import Mathlib

/-!
A verification development for the DarkDB embedded document store.

The store keeps an in-memory JSON-like tree (`Value`), an expiry table
(key string → absolute millisecond timestamp), and an inverted index
(lowercase token → posting list of document paths).  The definitions
below are a shallow embedding of the JavaScript source: `DarkDB`'s
synchronous core (`_resolvePath`, `_getRef`, `_getSync`, `_setSync`,
`_deleteSync`, `_cleanupExpiredSync`), the public operations built on
them, `IndexManager`, the query matcher, and the transaction logic.

Modelling scope (JavaScript features deliberately outside the model):
* numbers are `Int` (IEEE floats and `NaN` are not modelled);
* array values are dense lists plus holes (`vundef` elements);
  string-valued array properties, including `length`, are not modelled,
  so array access is by canonical numeric index only;
* the JS rule that integer-like object keys enumerate before string
  keys is not modelled: enumeration follows insertion order, and every
  theorem below is stated so that it does not depend on that order;
* `toLowerCase` and `\s` cover ASCII;
* strict equality (`===`) on two containers is reference equality in
  JS; the model treats separately constructed containers as unequal,
  which matches every non-aliased comparison;
* plain objects are modelled as own-property records: JavaScript's
  `in`, reads and writes additionally see the prototype chain, whose
  only members here are those of `Object.prototype` (`"toString"`,
  the `"__proto__"` accessor, …).  The path-level theorems therefore
  guard every segment with `protoFree`/`objProtoKeys`, the segments on
  which the own-property model and JavaScript agree.
-/

namespace DarkDB

/-- A JavaScript value as stored in the tree.  `vundef` is JavaScript's
`undefined`: the result of a missed lookup, and an array hole. -/
inductive Value where
  | vundef : Value
  | vnull : Value
  | vbool : Bool → Value
  | vnum : Int → Value
  | vstr : String → Value
  | varr : List Value → Value
  | vobj : List (String × Value) → Value
  deriving Repr

open Value

mutual

/-- Structural equality of values; the nested list positions force a
mutual recursion, for which no deriving handler applies. -/
def beqValue : Value → Value → Bool
  | vundef, vundef => true
  | vnull, vnull => true
  | vbool a, vbool b => a == b
  | vnum a, vnum b => a == b
  | vstr a, vstr b => a == b
  | varr a, varr b => beqValueList a b
  | vobj a, vobj b => beqValueFields a b
  | _, _ => false

def beqValueList : List Value → List Value → Bool
  | [], [] => true
  | x :: xs, y :: ys => beqValue x y && beqValueList xs ys
  | _, _ => false

def beqValueFields : List (String × Value) → List (String × Value) → Bool
  | [], [] => true
  | (k₁, v₁) :: xs, (k₂, v₂) :: ys => k₁ == k₂ && beqValue v₁ v₂ && beqValueFields xs ys
  | _, _ => false

end

mutual

theorem beqValue_iff_eq : ∀ a b : Value, beqValue a b = true ↔ a = b
  | vundef, vundef => by simp [beqValue]
  | vnull, vnull => by simp [beqValue]
  | vbool _, vbool _ => by simp [beqValue]
  | vnum _, vnum _ => by simp [beqValue]
  | vstr _, vstr _ => by simp [beqValue]
  | varr x, varr y => by simp [beqValue, beqValueList_iff_eq x y]
  | vobj x, vobj y => by simp [beqValue, beqValueFields_iff_eq x y]
  | vundef, vnull | vundef, vbool _ | vundef, vnum _ | vundef, vstr _ | vundef, varr _
  | vundef, vobj _
  | vnull, vundef | vnull, vbool _ | vnull, vnum _ | vnull, vstr _ | vnull, varr _
  | vnull, vobj _
  | vbool _, vundef | vbool _, vnull | vbool _, vnum _ | vbool _, vstr _ | vbool _, varr _
  | vbool _, vobj _
  | vnum _, vundef | vnum _, vnull | vnum _, vbool _ | vnum _, vstr _ | vnum _, varr _
  | vnum _, vobj _
  | vstr _, vundef | vstr _, vnull | vstr _, vbool _ | vstr _, vnum _ | vstr _, varr _
  | vstr _, vobj _
  | varr _, vundef | varr _, vnull | varr _, vbool _ | varr _, vnum _ | varr _, vstr _
  | varr _, vobj _
  | vobj _, vundef | vobj _, vnull | vobj _, vbool _ | vobj _, vnum _ | vobj _, vstr _
  | vobj _, varr _ => by simp [beqValue]

theorem beqValueList_iff_eq : ∀ xs ys : List Value, beqValueList xs ys = true ↔ xs = ys
  | [], [] => by simp [beqValueList]
  | x :: xs, y :: ys => by simp [beqValueList, beqValue_iff_eq x y, beqValueList_iff_eq xs ys]
  | [], _ :: _ => by simp [beqValueList]
  | _ :: _, [] => by simp [beqValueList]

theorem beqValueFields_iff_eq :
    ∀ xs ys : List (String × Value), beqValueFields xs ys = true ↔ xs = ys
  | [], [] => by simp [beqValueFields]
  | (k₁, v₁) :: xs, (k₂, v₂) :: ys => by
      simp [beqValueFields, beqValue_iff_eq v₁ v₂, beqValueFields_iff_eq xs ys,
        and_assoc]
  | [], _ :: _ => by simp [beqValueFields]
  | _ :: _, [] => by simp [beqValueFields]

end

instance : DecidableEq Value := fun a b =>
  decidable_of_iff (beqValue a b = true) (beqValue_iff_eq a b)

/-! ### JavaScript object / `Map` semantics on association lists

A JS object (and a JS `Map`) is a finite string-keyed mapping whose
enumeration follows insertion order: assigning to an existing key keeps
its position, assigning a fresh key appends, `delete` removes. -/

/-- Property read: the first binding of `k` (keys are unique in every
mapping the operations below construct). -/
def jsGet : List (String × α) → String → Option α
  | [], _ => none
  | e :: es, k => if e.1 = k then some e.2 else jsGet es k

/-- Property write: overwrite in place when the key is present, append
otherwise. -/
def jsSet : List (String × α) → String → α → List (String × α)
  | [], k, v => [(k, v)]
  | e :: es, k, v => if e.1 = k then (k, v) :: es else e :: jsSet es k v

/-- Property removal (`delete obj[k]`). -/
def jsDel : List (String × α) → String → List (String × α)
  | [], _ => []
  | e :: es, k => if e.1 = k then jsDel es k else e :: jsDel es k

theorem jsGet_jsSet_self (m : List (String × α)) (k : String) (v : α) :
    jsGet (jsSet m k v) k = some v := by
  induction m with
  | nil => simp [jsGet, jsSet]
  | cons e es ih =>
      by_cases he : e.1 = k
      · simp [jsGet, jsSet, he]
      · simp [jsGet, jsSet, he, ih]

theorem jsGet_jsSet_ne (m : List (String × α)) (k j : String) (v : α) (h : j ≠ k) :
    jsGet (jsSet m k v) j = jsGet m j := by
  induction m with
  | nil => simp [jsGet, jsSet, Ne.symm h]
  | cons e es ih =>
      by_cases he : e.1 = k
      · simp [jsGet, jsSet, he, Ne.symm h, he ▸ (Ne.symm h)]
      · by_cases hej : e.1 = j
        · simp [jsGet, jsSet, he, hej, h]
        · simp [jsGet, jsSet, he, hej, ih]

theorem jsGet_jsDel_self (m : List (String × α)) (k : String) :
    jsGet (jsDel m k) k = none := by
  induction m with
  | nil => simp [jsGet, jsDel]
  | cons e es ih =>
      by_cases he : e.1 = k
      · simp [jsDel, he, ih]
      · simp [jsGet, jsDel, he, ih]

/-- JS truthiness (`!v` negated). -/
def jsTruthy : Value → Bool
  | vundef => false
  | vnull => false
  | vbool b => b
  | vnum n => n != 0
  | vstr s => s ≠ ""
  | varr _ => true
  | vobj _ => true

/-- `typeof v === "object" && v !== null`: the values `_getRef` walks
through rather than replacing with `\x7b\x7d`. -/
def isContainer : Value → Bool
  | varr _ => true
  | vobj _ => true
  | _ => false

/-- Arrays and only arrays (`Array.isArray`). -/
def isArr : Value → Bool
  | varr _ => true
  | _ => false

/-- A canonical array index: the property names JS routes to array
elements ("0", "1", …; no leading zeros, no signs). -/
def parseIndex (s : String) : Option Nat :=
  match s.toNat? with
  | some n => if s = toString n then some n else none
  | none => none

/-- `obj[k]` own-property read; a missed lookup, a scalar receiver and
an array hole all read as `undefined`.  Coincides with JavaScript on
keys outside `objProtoKeys` (JS falls back to the prototype chain
there; path theorems guard with `protoFree`). -/
def propGet : Value → String → Value
  | vobj fs, k => (jsGet fs k).getD vundef
  | varr xs, k =>
      match parseIndex k with
      | some i => xs.getD i vundef
      | none => vundef
  | _, _ => vundef

/-- `k in obj` as own-property membership; array holes and
out-of-range indices are absent.  Coincides with JavaScript on keys
outside `objProtoKeys` (JS's `in` also sees the prototype chain; path
theorems guard with `protoFree`). -/
def propIn : Value → String → Bool
  | vobj fs, k => (jsGet fs k).isSome
  | varr xs, k =>
      match parseIndex k with
      | some i => decide (xs.getD i vundef ≠ vundef)
      | none => false
  | _, _ => false

/-- Writing an array element, padding with holes past the end. -/
def listSetPad (xs : List Value) (i : Nat) (v : Value) : List Value :=
  if i < xs.length then xs.set i v
  else xs ++ List.replicate (i - xs.length) vundef ++ [v]

/-- `obj[k] = v`: own-property assignment.  Assignment to a scalar
receiver is silently dropped (non-strict JS); array assignment is
modelled for numeric indices only.  Coincides with JavaScript on keys
outside `objProtoKeys` (assigning `"__proto__"` invokes the inherited
accessor instead; path theorems guard with `protoFree`). -/
def propSet : Value → String → Value → Value
  | vobj fs, k, v => vobj (jsSet fs k v)
  | varr xs, k, v =>
      match parseIndex k with
      | some i => varr (listSetPad xs i v)
      | none => varr xs
  | w, _, _ => w

/-- `delete obj[k]`: removal; deleting an array element leaves a hole. -/
def propDel : Value → String → Value
  | vobj fs, k => vobj (jsDel fs k)
  | varr xs, k =>
      match parseIndex k with
      | some i => varr (if i < xs.length then xs.set i vundef else xs)
      | none => varr xs
  | w, _ => w

/-! ### Kernel-friendly string splitting

`String.splitOn`, `String.split`, `String.trim` and `String.toLower`
are defined by position-based well-founded recursion, which the kernel
cannot evaluate; the structural char-list versions below compute under
`decide` and agree with them on every input the theorems use. -/

/-- `splitOnCore sep fuel s acc`: split `s` at every occurrence of the
non-empty separator; the fuel (chars remaining + 1) makes the recursion
structural. -/
def splitOnCore (sep : List Char) : Nat → List Char → List Char → List (List Char)
  | 0, _, acc => [acc.reverse]
  | _ + 1, [], acc => [acc.reverse]
  | n + 1, c :: rest, acc =>
      if sep.isPrefixOf (c :: rest) then
        acc.reverse :: splitOnCore sep n ((c :: rest).drop sep.length) []
      else splitOnCore sep n rest (c :: acc)

/-- JS `String.prototype.split` with a string separator (an empty
separator splits into single characters). -/
def jsSplit (sep s : String) : List String :=
  if sep = "" then s.toList.map (fun c => String.mk [c])
  else (splitOnCore sep.toList (s.toList.length + 1) s.toList []).map String.mk

/-- Splitting at every character matching a predicate (the shape of
`/\s+/` once empty pieces are filtered away). -/
def splitPredCore (p : Char → Bool) : List Char → List Char → List (List Char)
  | [], acc => [acc.reverse]
  | c :: rest, acc =>
      if p c then acc.reverse :: splitPredCore p rest [] else splitPredCore p rest (c :: acc)

def splitPred (p : Char → Bool) (s : String) : List String :=
  (splitPredCore p s.toList []).map String.mk

/-- ASCII `toLowerCase`. -/
def lowerStr (s : String) : String :=
  String.mk (s.toList.map Char.toLower)

/-- `String.prototype.trim` (ASCII whitespace). -/
def trimStr (s : String) : String :=
  String.mk (((s.toList.dropWhile Char.isWhitespace).reverse.dropWhile
    Char.isWhitespace).reverse)

/-! ### Path resolution and the three tree walks -/

/-- `_resolvePath`: split the key on the separator, drop empty
segments; an empty key throws (`none`). -/
def resolvePath (sep key : String) : Option (List String) :=
  if key = "" then none
  else some ((jsSplit sep key).filter (fun s => s ≠ ""))

/-- `_getSync`'s walk: at each step the current node must be a non-null
object carrying the segment (`obj == null`, `typeof obj !== "object"`,
`!(k in obj)` all answer `undefined`). -/
def getSegs : Value → List String → Value
  | obj, [] => obj
  | obj, k :: ks => if propIn obj k then getSegs (propGet obj k) ks else vundef

/-- `_getRef(keys, true)` followed by `ref[last] = value`, as one pure
function, paired with `ref[last]`'s previous value (`oldValue` in
`_setSync`, read after intermediate containers were fabricated).  With
no segments `_getRef` yields the root and an `undefined` last segment,
which JS coerces to the property name `"undefined"`. -/
def setSegs : Value → List String → Value → Value × Value
  | obj, [], v => (propSet obj "undefined" v, propGet obj "undefined")
  | obj, [last], v => (propSet obj last v, propGet obj last)
  | obj, k :: k2 :: rest, v =>
      let child := propGet obj k
      let child' := if isContainer child then child else vobj []
      let res := setSegs child' (k2 :: rest) v
      (propSet obj k res.1, res.2)

/-- The create-walk of `setSegs` stays inside the model: it never
writes a non-numeric property of an array (JS would store a string
property there, which the model does not carry). -/
def navSafe : Value → List String → Bool
  | obj, [] => !isArr obj
  | obj, [last] => !isArr obj || (parseIndex last).isSome
  | obj, k :: k2 :: rest =>
      (!isArr obj || (parseIndex k).isSome) &&
        navSafe (if isContainer (propGet obj k) then propGet obj k else vobj []) (k2 :: rest)

/-- The member names of `Object.prototype`, present on every plain
object's prototype chain.  On these keys JavaScript's `k in obj` is
`true` even with no own property, `obj[k]` answers the inherited
member, and assignment to `"__proto__"` invokes the inherited accessor
(setting the prototype, swallowing primitives) instead of creating an
own entry. -/
def objProtoKeys : List String :=
  ["constructor", "hasOwnProperty", "isPrototypeOf", "propertyIsEnumerable",
   "toLocaleString", "toString", "valueOf", "__proto__",
   "__defineGetter__", "__defineSetter__", "__lookupGetter__", "__lookupSetter__"]

/-- Segment sequences on which the own-property model of `in`, reads
and writes coincides with JavaScript: no segment is an inherited
`Object.prototype` member name (see `objProtoKeys`). -/
def protoFree (segs : List String) : Bool :=
  segs.all (fun s => !objProtoKeys.contains s)

/-- `_deleteSync`'s core: `_getRef(keys, false)` and, when the final
segment is present, `delete ref[last]`; the updated tree and the
deletion flag.  A missing, `null`-ish or scalar intermediate answers
`false` with the tree untouched. -/
def delSegs : Value → List String → Value × Bool
  | obj, [] =>
      if propIn obj "undefined" then (propDel obj "undefined", true) else (obj, false)
  | obj, [last] =>
      if propIn obj last then (propDel obj last, true) else (obj, false)
  | obj, k :: k2 :: rest =>
      let child := propGet obj k
      if child = vundef ∨ child = vnull then (obj, false)
      else if !isContainer child then (obj, false)
      else
        let res := delSegs child (k2 :: rest)
        if res.2 then (propSet obj k res.1, true) else (obj, false)

/-! ### `JSON.stringify` and `JSON.parse(JSON.stringify(·))` -/

/-- Escaping of `"` and `\` inside a JSON string (control-character
escapes are irrelevant to the equality checks the source uses
`JSON.stringify` for). -/
def jsonEscape (s : String) : String :=
  s.foldl
    (fun acc c =>
      acc ++ (if c = '\\' then "\\\\" else if c = '"' then "\\\"" else String.singleton c))
    ""

mutual

/-- `JSON.stringify`: `none` is JS's undefined result for an undefined
input; undefined-valued fields are omitted, array holes print as
`null`. -/
def stringify : Value → Option String
  | vundef => none
  | vnull => some "null"
  | vbool b => some (cond b "true" "false")
  | vnum n => some (toString n)
  | vstr s => some ("\"" ++ jsonEscape s ++ "\"")
  | varr xs => some ("[" ++ String.intercalate "," (stringifyElems xs) ++ "]")
  | vobj fs => some ("\x7b" ++ String.intercalate "," (stringifyFields fs) ++ "\x7d")

def stringifyElems : List Value → List String
  | [] => []
  | x :: xs => ((stringify x).getD "null") :: stringifyElems xs

def stringifyFields : List (String × Value) → List String
  | [] => []
  | (k, v) :: fs =>
      match stringify v with
      | none => stringifyFields fs
      | some sv => ("\"" ++ jsonEscape k ++ "\":" ++ sv) :: stringifyFields fs

end

mutual

/-- `JSON.parse(JSON.stringify(v))`, the deep copy used by `all`,
`export`, `import` and the transaction snapshot: undefined-valued
fields vanish, array holes become `null`. -/
def jsonClean : Value → Value
  | varr xs => varr (jsonCleanElems xs)
  | vobj fs => vobj (jsonCleanFields fs)
  | v => v

def jsonCleanElems : List Value → List Value
  | [] => []
  | x :: xs => (if x = vundef then vnull else jsonClean x) :: jsonCleanElems xs

def jsonCleanFields : List (String × Value) → List (String × Value)
  | [] => []
  | (k, v) :: fs =>
      if v = vundef then jsonCleanFields fs else (k, jsonClean v) :: jsonCleanFields fs

end

/-! ### IndexManager -/

/-- Tokenization shared by indexing and search:
`text.toLowerCase().split(/\s+/).filter(Boolean)`. -/
def tokenize (text : String) : List String :=
  (splitPred Char.isWhitespace (lowerStr text)).filter (fun w => w ≠ "")

/-- The inverted index: token → posting list, both in insertion order
(`Map` of `Set`s in the source). -/
abbrev Index := List (String × List String)

/-- The posting set of a token (empty when the token is absent). -/
def postings (idx : Index) (t : String) : List String :=
  (jsGet idx t).getD []

/-- `IndexManager.delete`: drop `key` from every posting set, dropping
a token entry whose set becomes empty (entries not holding the key are
untouched, empty or not). -/
def imDelete : Index → String → Index
  | [], _ => []
  | e :: es, key =>
      if e.2.contains key then
        if e.2.filter (fun x => x ≠ key) = [] then imDelete es key
        else (e.1, e.2.filter (fun x => x ≠ key)) :: imDelete es key
      else e :: imDelete es key

/-- Adding one word → key posting (the loop body of
`IndexManager.indexText`). -/
def imAddWord (idx : Index) (word key : String) : Index :=
  match jsGet idx word with
  | some ks => jsSet idx word (if ks.contains key then ks else ks ++ [key])
  | none => idx ++ [(word, [key])]

/-- `IndexManager.indexText`: tokenize and insert every word. -/
def imIndexText (idx : Index) (key text : String) : Index :=
  (tokenize text).foldl (fun acc w => imAddWord acc w key) idx

/-- One configured field of `IndexManager.update`'s loop: index the
field's text when it is a truthy string. -/
def imUpdateStep (key : String) (v : Value) (acc : Index) (f : String) : Index :=
  match propGet v f with
  | vstr s => if s ≠ "" then imIndexText acc key s else acc
  | _ => acc

/-- `IndexManager.update`: remove, then re-index the configured fields
whose value is a non-empty string. -/
def imUpdate (fields : List String) (idx : Index) (key : String) (v : Value) : Index :=
  let idx1 := imDelete idx key
  if isContainer v then fields.foldl (imUpdateStep key v) idx1 else idx1

/-- `IndexManager.search`: AND-intersection of the query tokens'
posting sets, in the first token's posting order. -/
def imSearchGo (idx : Index) : List String → List String → List String
  | [], res => res
  | t :: ts, res =>
      match jsGet idx t with
      | none => []
      | some ws => imSearchGo idx ts (res.filter (fun x => ws.contains x))

def imSearch (idx : Index) (query : String) : List String :=
  match tokenize query with
  | [] => []
  | t0 :: rest =>
      let init := (jsGet idx t0).getD []
      if init = [] then [] else imSearchGo idx rest init

/-! ### Index rebuild (`_rebuildIndex`) and its specification -/

/-- Path accumulation of `indexRecursive`:
`currentKey ? currentKey + separator + key : key`. -/
def childKey (sep cur k : String) : String :=
  if cur = "" then k else cur ++ sep ++ k

mutual

/-- `indexRecursive` of `_rebuildIndex`: visit every container node
(the root included, under the accumulated key), calling
`IndexManager.update` on each; `for … in` yields object fields in
order and array indices of non-hole elements. -/
def indexRec (sep : String) (fields : List String) : Index → Value → String → Index
  | idx, vobj fs, cur => indexRecFields sep fields (imUpdate fields idx cur (vobj fs)) fs cur
  | idx, varr xs, cur => indexRecElems sep fields (imUpdate fields idx cur (varr xs)) xs 0 cur
  | idx, _, _ => idx

def indexRecFields (sep : String) (fields : List String) :
    Index → List (String × Value) → String → Index
  | idx, [], _ => idx
  | idx, (k, c) :: fs, cur =>
      indexRecFields sep fields (indexRec sep fields idx c (childKey sep cur k)) fs cur

def indexRecElems (sep : String) (fields : List String) :
    Index → List Value → Nat → String → Index
  | idx, [], _, _ => idx
  | idx, x :: xs, i, cur =>
      indexRecElems sep fields
        (if x = vundef then idx else indexRec sep fields idx x (childKey sep cur (toString i)))
        xs (i + 1) cur

end

/-- `_rebuildIndex`: clear, then index every container node of the
tree starting from the root with the empty accumulated key. -/
def rebuildIndex (sep : String) (fields : List String) (data : Value) : Index :=
  indexRec sep fields [] data ""

mutual

/-- The document paths of a tree: every container node paired with its
accumulated path string, in `indexRecursive`'s visiting order.  This is
the "every nested object becomes an independently addressable document"
set the specification describes. -/
def subdocs (sep : String) : Value → String → List (String × Value)
  | vobj fs, cur => (cur, vobj fs) :: subdocsFields sep fs cur
  | varr xs, cur => (cur, varr xs) :: subdocsElems sep xs 0 cur
  | _, _ => []

def subdocsFields (sep : String) : List (String × Value) → String → List (String × Value)
  | [], _ => []
  | (k, c) :: fs, cur => subdocs sep c (childKey sep cur k) ++ subdocsFields sep fs cur

def subdocsElems (sep : String) : List Value → Nat → String → List (String × Value)
  | [], _, _ => []
  | x :: xs, i, cur =>
      (if x = vundef then [] else subdocs sep x (childKey sep cur (toString i))) ++
        subdocsElems sep xs (i + 1) cur

end

/-- One configured field's contribution of tokens (the specification
counterpart of `imUpdateStep`). -/
def docTokensStep (v : Value) (acc : List String) (f : String) : List String :=
  match propGet v f with
  | vstr s => if s ≠ "" then acc ++ tokenize s else acc
  | _ => acc

/-- The indexed tokens of one document: the tokens of each configured
field whose value is a non-empty string, in field order. -/
def docTokens (fields : List String) (v : Value) : List String :=
  if isContainer v then fields.foldl (docTokensStep v) [] else []

/-! ### The store -/

/-- The in-memory state of a `DarkDB` instance: the document tree
(`_data`), the expiry table (`_expires`, key → absolute ms timestamp),
the inverted index (`_indexManager.indexes`), plus the `separator` and
`indexFields` configuration.  Persistence, hooks and events are
modelled separately (see the `Step` traces); `Date.now()` is an
explicit `now` argument. -/
structure DB where
  separator : String
  indexFields : List String
  data : Value
  expires : List (String × Int)
  index : Index
  deriving DecidableEq

/-- A fresh store with default options. -/
def dbNew : DB :=
  { separator := ".", indexFields := ["title", "description"],
    data := vobj [], expires := [], index := [] }

/-- `_getSync` (`none` = the empty-key throw of `_resolvePath`). -/
def getSync (db : DB) (key : String) : Option Value :=
  (resolvePath db.separator key).map (fun segs => getSegs db.data segs)

/-- `_setSync`: write through the create-walk, and re-index the exact
written key when `JSON.stringify` says the value changed. -/
def setSync (db : DB) (key : String) (v : Value) : Option DB :=
  (resolvePath db.separator key).map (fun segs =>
    let res := setSegs db.data segs v
    let index' :=
      if stringify res.2 ≠ stringify v then imUpdate db.indexFields db.index key v
      else db.index
    { db with data := res.1, index := index' })

/-- `_deleteSync`: remove the path when present (also dropping the key
from every posting set); report whether anything was removed. -/
def deleteSync (db : DB) (key : String) : Option (DB × Bool) :=
  (resolvePath db.separator key).map (fun segs =>
    let res := delSegs db.data segs
    if res.2 then ({ db with data := res.1, index := imDelete db.index key }, true)
    else (db, false))

/-- Public `set` (schema and hooks not configured): write, then set or
clear the key's expiry entry depending on a positive numeric `ttlMs`.
`ttlMs = none` covers an absent or non-numeric option. -/
def setOp (db : DB) (now : Int) (key : String) (v : Value) (ttlMs : Option Int) : Option DB :=
  (setSync db key v).map (fun db1 =>
    match ttlMs with
    | some t =>
        if t > 0 then { db1 with expires := jsSet db1.expires key (now + t) }
        else { db1 with expires := jsDel db1.expires key }
    | none => { db1 with expires := jsDel db1.expires key })

/-- Public `delete`: remove the path and the key's expiry entry. -/
def deleteOp (db : DB) (key : String) : Option (DB × Bool) :=
  (deleteSync db key).map (fun r => ({ r.1 with expires := jsDel r.1.expires key }, r.2))

/-- `Object.entries`. -/
def objEntries : Value → List (String × Value)
  | vobj fs => fs
  | varr xs => xs.enum.filterMap (fun e => if e.2 = vundef then none else some (toString e.1, e.2))
  | _ => []

/-- Strict equality `===`: structural on scalars; two separately
constructed containers are distinct references, hence never equal. -/
def jsStrictEq : Value → Value → Bool
  | vundef, vundef => true
  | vnull, vnull => true
  | vbool a, vbool b => a == b
  | vnum a, vnum b => a == b
  | vstr a, vstr b => a == b
  | _, _ => false

/-- Public `push`: append to the array at the key, or to a fresh empty
array when the value there is absent or not an array, then store the
result back through `_setSync`.  `arr.push` mutates the stored array in
place before `_setSync` re-assigns it, so in the array case
`_setSync`'s `oldValue` is the already-extended array itself and the
structural-change check always skips the index update. -/
def pushOp (db : DB) (key : String) (v : Value) : Option (DB × List Value) :=
  (getSync db key).bind (fun cur =>
    match cur with
    | varr xs =>
        let xs' := xs ++ [v]
        (resolvePath db.separator key).map (fun segs =>
          ({ db with data := (setSegs db.data segs (varr xs')).1 }, xs'))
    | _ => (setSync db key (varr [v])).map (fun db1 => (db1, [v])))

/-- Public `unpush`: when the key holds an array, filter out elements
strictly equal to `v` (holes are skipped by `Array.prototype.filter`)
and store the fresh array back through `_setSync`; otherwise answer an
empty array WITHOUT touching the store. -/
def unpushOp (db : DB) (key : String) (v : Value) : Option (DB × List Value) :=
  (getSync db key).bind (fun cur =>
    match cur with
    | varr xs =>
        let xs' := xs.filter (fun w => if w = vundef then false else !(jsStrictEq w v))
        (setSync db key (varr xs')).map (fun db1 => (db1, xs'))
    | _ => some (db, []))

/-- Public `import`: replace the tree by a deep copy of the supplied
container, clear every expiry entry, rebuild the index (`none` = the
`import() expects object` throw). -/
def importOp (db : DB) (obj : Value) : Option DB :=
  if isContainer obj then
    some { db with data := jsonClean obj, expires := [],
                   index := rebuildIndex db.separator db.indexFields (jsonClean obj) }
  else none

/-! ### The query matcher -/

/-- Errors of the filter matcher.  `unknownOperator` and
`invalidFilter` are the taxonomy of §7; `typeError` is a JS `TypeError`
escaping the matcher (property read of `null`, `Object.entries(null)`,
`includes` of a non-sequence).  `outOfFuel` is an artifact of the
fueled embedding, unreachable whenever the fuel exceeds the filter's
combinator nesting depth (`matchDoc` supplies `sizeOf cond + 1`). -/
inductive QErr where
  | unknownOperator (op : String)
  | invalidFilter (msg : String)
  | typeError
  | outOfFuel
  deriving DecidableEq, Repr

instance {ε α : Type} [DecidableEq ε] [DecidableEq α] : DecidableEq (Except ε α)
  | .ok a, .ok b =>
      if h : a = b then isTrue (by rw [h]) else isFalse (by intro hc; cases hc; exact h rfl)
  | .error a, .error b =>
      if h : a = b then isTrue (by rw [h]) else isFalse (by intro hc; cases hc; exact h rfl)
  | .ok _, .error _ => isFalse (by intro hc; cases hc)
  | .error _, .ok _ => isFalse (by intro hc; cases hc)

/-- `obj[field]` inside the matcher: JS throws a `TypeError` for a
`null`/`undefined` receiver; any other non-container reads
`undefined`. -/
def fieldVal : Value → String → Except QErr Value
  | vnull, _ => .error .typeError
  | vundef, _ => .error .typeError
  | obj, f => pure (propGet obj f)

/-- JS `ToNumber` as far as ordered comparisons need it (`none` is
`NaN`; container coercion is not modelled). -/
def toNum : Value → Option Int
  | vnum n => some n
  | vbool b => some (cond b 1 0)
  | vnull => some 0
  | vstr s => if trimStr s = "" then some 0 else (trimStr s).toInt?
  | _ => none

/-- The abstract relational comparison `a < b`: string–string is
lexicographic, anything else goes through `ToNumber`, and `NaN` makes
every comparison answer `false`. -/
def jsLess : Value → Value → Bool
  | vstr x, vstr y => decide (x < y)
  | a, b =>
      match toNum a, toNum b with
      | some x, some y => decide (x < y)
      | _, _ => false

/-- Both sides order-comparable (no `NaN`): what `>=`/`<=` need on top
of the negated `<`. -/
def jsCmpOk : Value → Value → Bool
  | vstr _, vstr _ => true
  | a, b => (toNum a).isSome && (toNum b).isSome

/-- String coercion as `$regex` needs it. -/
def toJsString : Value → String
  | vundef => "undefined"
  | vnull => "null"
  | vbool b => cond b "true" "false"
  | vnum n => toString n
  | vstr s => s
  | varr _ => ""
  | vobj _ => "[object Object]"

/-- `new RegExp(cmp).test(val)`, modelled as plain substring search
(regular-expression metacharacters are outside the model; no claim
depends on pattern syntax). -/
def regexTest (cmp val : Value) : Bool :=
  decide ((toJsString cmp).toList <:+: (toJsString val).toList)

/-- The operator loop of the matcher: each known operator either lets
the scan continue or answers `false`; the first unknown operator key
reached throws `UnknownOperator`.  Model boundary: `$in`/`$nin` with a
non-array comparand answer `typeError` here, covering the source's
`cmp.includes(val)` on comparands without an `includes` member; for a
STRING comparand JavaScript's `String.prototype.includes` instead
succeeds (substring test after coercion).  No settled theorem
evaluates `$in`/`$nin` on a non-array comparand. -/
def matchOps : Value → List (String × Value) → Except QErr Bool
  | _, [] => pure true
  | val, (op, cmp) :: rest =>
      if op = "$eq" then
        if jsStrictEq val cmp then matchOps val rest else pure false
      else if op = "$ne" then
        if jsStrictEq val cmp then pure false else matchOps val rest
      else if op = "$gt" then
        if jsLess cmp val then matchOps val rest else pure false
      else if op = "$gte" then
        if jsCmpOk val cmp && !jsLess val cmp then matchOps val rest else pure false
      else if op = "$lt" then
        if jsLess val cmp then matchOps val rest else pure false
      else if op = "$lte" then
        if jsCmpOk val cmp && !jsLess cmp val then matchOps val rest else pure false
      else if op = "$in" then
        match cmp with
        | varr xs => if xs.any (fun x => jsStrictEq x val) then matchOps val rest else pure false
        | _ => .error .typeError
      else if op = "$nin" then
        match cmp with
        | varr xs => if xs.any (fun x => jsStrictEq x val) then pure false else matchOps val rest
        | _ => .error .typeError
      else if op = "$regex" then
        if regexTest cmp val then matchOps val rest else pure false
      else .error (.unknownOperator op)

/-- `cond.$and.every(sub => match(obj, sub))`, abstracted over the
recursive matcher call. -/
def matchAllSubs (f : Value → Except QErr Bool) : List Value → Except QErr Bool
  | [] => pure true
  | s :: ss => do
      let b ← f s
      if b then matchAllSubs f ss else pure false

/-- `cond.$or.some(sub => match(obj, sub))`, abstracted over the
recursive matcher call. -/
def matchAnySubs (f : Value → Except QErr Bool) : List Value → Except QErr Bool
  | [] => pure false
  | s :: ss => do
      let b ← f s
      if b then pure true else matchAnySubs f ss

/-- The field → rule loop of the matcher (it never recurses into the
combinator matcher). -/
def matchFields (obj : Value) : List (String × Value) → Except QErr Bool
  | [] => pure true
  | (field, rule) :: rest => do
      let val ← fieldVal obj field
      match rule with
      | vobj ops => do
          let b ← matchOps val ops
          if b then matchFields obj rest else pure false
      | vnull => .error .typeError
      | _ =>
          if jsStrictEq val rule then matchFields obj rest else pure false

/-- The `match(obj, cond)` closure of `query` (named `matchF` here:
`match` is reserved in Lean).  A falsy or non-object filter answers
`false`; a truthy `$and`/`$or` must hold an array of sub-filters and
throws `InvalidFilter` otherwise; a truthy `$not` negates one
sub-filter; everything else is a field → rule mapping where an object
rule is an operator conjunction and any other rule a strict-equality
literal (a `null` rule reaches `Object.entries(null)`, a `TypeError`).
The recursion is structural on the fuel, which only combinator nesting
consumes. -/
def matchF : Nat → Value → Value → Except QErr Bool
  | 0, _, _ => .error .outOfFuel
  | n + 1, obj, cond =>
      if !isContainer cond then pure false
      else
        let andV := propGet cond "$and"
        if jsTruthy andV then
          match andV with
          | varr subs => matchAllSubs (matchF n obj) subs
          | _ => .error (.invalidFilter "$and must be array")
        else
          let orV := propGet cond "$or"
          if jsTruthy orV then
            match orV with
            | varr subs => matchAnySubs (matchF n obj) subs
            | _ => .error (.invalidFilter "$or must be array")
          else
            let notV := propGet cond "$not"
            if jsTruthy notV then (matchF n obj notV).map (fun b => !b)
            else matchFields obj (objEntries cond)

mutual

/-- A computable size of a value, bounding the combinator nesting
depth of a filter. -/
def valSize : Value → Nat
  | varr xs => 1 + valSizeElems xs
  | vobj fs => 1 + valSizeFields fs
  | _ => 1

def valSizeElems : List Value → Nat
  | [] => 0
  | x :: xs => valSize x + valSizeElems xs + 1

def valSizeFields : List (String × Value) → Nat
  | [] => 0
  | e :: fs => valSize e.2 + valSizeFields fs + 1

end

/-- The matcher at adequate fuel: the combinator nesting depth of the
filter is below its size. -/
def matchDoc (obj cond : Value) : Except QErr Bool :=
  matchF (valSize cond + 1) obj cond

/-- A transaction body, as the batch of store operations it performs
(`fail` models an error raised by the body; an invalid-key throw from
an operation fails the batch the same way). -/
inductive TxOp where
  | setv (key : String) (v : Value) (ttlMs : Option Int)
  | del (key : String)
  | fail
  deriving DecidableEq, Repr

/-- Run the body's operations against the transaction workspace,
stopping at the first failure. -/
def runTxOps (now : Int) : DB → List TxOp → DB × Bool
  | db, [] => (db, true)
  | db, op :: ops =>
      match op with
      | .fail => (db, false)
      | .setv k v t =>
          match setOp db now k v t with
          | some db' => runTxOps now db' ops
          | none => (db, false)
      | .del k =>
          match deleteOp db k with
          | some r => runTxOps now r.1 ops
          | none => (db, false)

/-- `transaction(fn)`: snapshot the tree; build a workspace holding
deep copies of the tree and of the expiry table but SHARING the live
`IndexManager`; run the body.  On success the live tree and expiry
table are replaced by the workspace's and the index is rebuilt from the
new tree; on failure only the tree is restored from the snapshot — the
live expiry table was never touched by the body (the workspace copy
was), while the shared index keeps every mutation the body made. -/
def transactionRun (now : Int) (db : DB) (ops : List TxOp) : DB × Bool :=
  let snapshot := jsonClean db.data
  let temp : DB := { db with data := jsonClean db.data }
  let res := runTxOps now temp ops
  if res.2 then
    ({ db with data := res.1.data, expires := res.1.expires,
               index := rebuildIndex db.separator db.indexFields res.1.data }, true)
  else
    ({ db with data := snapshot, index := res.1.index }, false)

/-! ### Operation order (events, hooks, mutation, save scheduling) -/

/-- The observable actions a mutating operation performs, in program
order.  Conditional index maintenance is covered by the state model;
`emitEvt name` is `_emitter.emit(name, …)`. -/
inductive Step where
  | validateSchema
  | runPre (action : String)
  | mutate (key : String)
  | emitEvt (name : String)
  | scheduleSave
  | expiryUpdate (key : String)
  | runPost (action : String)
  deriving DecidableEq, Repr

/-- `_setSync`'s action order: mutate, emit `set` then `change`
(`_emit` fires both), schedule the save. -/
def setSyncSteps (key : String) : List Step :=
  [.mutate key, .emitEvt "set", .emitEvt "change", .scheduleSave]

/-- Public `set`'s action order: schema check, `pre` hooks, the whole
of `_setSync` (which already emits), the expiry-table update, `post`
hooks. -/
def setSteps (key : String) : List Step :=
  [.validateSchema, .runPre "set"] ++ setSyncSteps key ++ [.expiryUpdate key, .runPost "set"]

/-- `_deleteSync`'s action order when the key is present. -/
def deleteSyncSteps (key : String) : List Step :=
  [.mutate key, .emitEvt "delete", .emitEvt "change", .scheduleSave]

/-- Public `delete`'s action order (present key): `pre` hooks, the
whole of `_deleteSync` (which already emits), the expiry-table removal,
`post` hooks. -/
def deleteSteps (key : String) : List Step :=
  [.runPre "delete"] ++ deleteSyncSteps key ++ [.expiryUpdate key, .runPost "delete"]

/-- The position of the first occurrence of a step in a trace (the
trace length when absent). -/
def stepIdx (s : Step) : List Step → Nat
  | [] => 0
  | x :: xs => if x = s then 0 else stepIdx s xs + 1

/-! ### Search (claim C5) -/

theorem imSearchGo_mem (idx : Index) (ts : List String) (res : List String) (p : String) :
    p ∈ imSearchGo idx ts res ↔ p ∈ res ∧ ∀ t ∈ ts, p ∈ postings idx t := by
  induction ts generalizing res with
  | nil => simp [imSearchGo]
  | cons t ts ih =>
      cases h : jsGet idx t with
      | none =>
          simp only [imSearchGo]
          rw [h]
          simp [postings, h, List.forall_mem_cons]
      | some ws =>
          simp only [imSearchGo]
          rw [h, ih]
          simp only [postings, h, Option.getD_some, List.mem_filter,
            List.forall_mem_cons, List.elem_iff]
          tauto

/-- **Claim C5.**  For every query string, `search` tokenizes by
lowercasing, splitting on whitespace and dropping empty tokens; with no
tokens the result is empty, and otherwise a path is in the result
exactly when it lies in the posting set of every query token (AND
semantics) — in particular a token without postings forces an empty
result. -/
theorem darkdb_C5_search_and_semantics (idx : Index) (q p : String) :
    p ∈ imSearch idx q ↔ (tokenize q ≠ [] ∧ ∀ t ∈ tokenize q, p ∈ postings idx t) := by
  cases h : tokenize q with
  | nil => simp [imSearch, h]
  | cons t0 rest =>
      simp only [imSearch, h]
      by_cases h0 : (jsGet idx t0).getD [] = []
      · rw [if_pos h0]
        simp only [List.not_mem_nil, false_iff, not_and]
        intro _ hall
        have hp := hall t0 (List.mem_cons_self t0 rest)
        rw [postings, h0] at hp
        exact List.not_mem_nil p hp
      · simp only [if_neg h0, imSearchGo_mem]
        simp [postings, List.forall_mem_cons, and_assoc]

/-! ### TTL clearing on plain `set` (claim C10) -/

/-- **Claim C10.**  `set` without a positive numeric `ttlMs` removes
any existing expiry entry for the key, so a key previously stored with
a TTL loses its expiry when overwritten without one. -/
theorem darkdb_C10_set_clears_ttl (db : DB) (now : Int) (key : String) (v : Value)
    (ttlMs : Option Int) (db' : DB)
    (hpos : ∀ t, ttlMs = some t → t ≤ 0)
    (hset : setOp db now key v ttlMs = some db') :
    jsGet db'.expires key = none := by
  unfold setOp at hset
  cases hsync : setSync db key v with
  | none => rw [hsync] at hset; simp at hset
  | some db1 =>
      rw [hsync] at hset
      simp only [Option.map_some'] at hset
      cases ttlMs with
      | none =>
          simp only [Option.some_inj] at hset
          subst hset
          exact jsGet_jsDel_self _ _
      | some t =>
          have ht : t ≤ 0 := hpos t rfl
          simp only [Option.some_inj, if_neg (by omega : ¬ t > 0)] at hset
          subst hset
          exact jsGet_jsDel_self _ _

theorem darkdb_C10_witness :
    ∃ db', setOp { dbNew with expires := [("k", 100)] } 0 "k" (vnum 1) none = some db' ∧
      jsGet db'.expires "k" = none := by
  refine ⟨{ dbNew with data := vobj [("k", vnum 1)], expires := [] }, by decide, ?_⟩
  exact darkdb_C10_set_clears_ttl { dbNew with expires := [("k", 100)] } 0 "k" (vnum 1)
    none _ (fun t h => by cases h) (by decide)

/-! ### Path walk lemmas (claims C1, C3, C7) -/

theorem isContainer_ne_vundef {x : Value} (h : isContainer x = true) : x ≠ vundef := by
  cases x <;> simp_all [isContainer]

theorem listSetPad_getElem (xs : List Value) (i : Nat) (v : Value) :
    (listSetPad xs i v)[i]? = some v := by
  unfold listSetPad
  split
  · rename_i h
    exact List.getElem?_set_self (by simpa using h)
  · rename_i h
    rw [List.append_assoc, List.getElem?_append_right (by omega),
      List.getElem?_append_right (by simp)]
    simp only [List.length_replicate]
    have : i - xs.length - (i - xs.length) = 0 := by omega
    rw [this]
    rfl

theorem propGet_propSet_obj (fs : List (String × Value)) (k : String) (v : Value) :
    propGet (propSet (vobj fs) k v) k = v := by
  simp [propGet, propSet, jsGet_jsSet_self]

theorem propIn_propSet_obj (fs : List (String × Value)) (k : String) (v : Value) :
    propIn (propSet (vobj fs) k v) k = true := by
  simp [propIn, propSet, jsGet_jsSet_self]

theorem propGet_propSet_arrIdx (xs : List Value) (k : String) (i : Nat) (v : Value)
    (hi : parseIndex k = some i) : propGet (propSet (varr xs) k v) k = v := by
  simp [propGet, propSet, hi, List.getD_eq_getElem?_getD, listSetPad_getElem]

theorem propIn_propSet_arrIdx (xs : List Value) (k : String) (i : Nat) (v : Value)
    (hi : parseIndex k = some i) :
    propIn (propSet (varr xs) k v) k = decide (v ≠ vundef) := by
  simp [propIn, propSet, hi, List.getD_eq_getElem?_getD, listSetPad_getElem]

theorem setSegs_fst_isContainer (v : Value) :
    ∀ (segs : List String) (obj : Value), isContainer obj = true →
      isContainer (setSegs obj segs v).1 = true := by
  intro segs obj hc
  match segs, obj with
  | [], vobj _ => simp [setSegs, propSet, isContainer]
  | [], varr xs =>
      simp only [setSegs, propSet]
      cases parseIndex "undefined" <;> simp [isContainer]
  | [_], vobj _ => simp [setSegs, propSet, isContainer]
  | [last], varr xs =>
      simp only [setSegs, propSet]
      cases parseIndex last <;> simp [isContainer]
  | _ :: _ :: _, vobj _ => simp [setSegs, propSet, isContainer]
  | k :: _ :: _, varr xs =>
      simp only [setSegs, propSet]
      cases parseIndex k <;> simp [isContainer]
  | _, vundef => simp [isContainer] at hc
  | _, vnull => simp [isContainer] at hc
  | _, vbool _ => simp [isContainer] at hc
  | _, vnum _ => simp [isContainer] at hc
  | _, vstr _ => simp [isContainer] at hc

/-- Reading back along the path just written answers the written value
(`navSafe` rules out the unmodelled write of a non-index array
property). -/
theorem getSegs_setSegs :
    ∀ (segs : List String) (obj v : Value), segs ≠ [] → isContainer obj = true →
      navSafe obj segs = true → getSegs (setSegs obj segs v).1 segs = v
  | [], _, _, h, _, _ => absurd rfl h
  | [last], obj, v, _, hc, hs => by
      cases obj with
      | vobj fs =>
          show getSegs (propSet (vobj fs) last v) [last] = v
          rw [getSegs, propIn_propSet_obj, if_pos rfl, propGet_propSet_obj, getSegs]
      | varr xs =>
          simp only [navSafe, isArr, Bool.not_true, Bool.false_or] at hs
          obtain ⟨i, hi⟩ := Option.isSome_iff_exists.mp hs
          show getSegs (propSet (varr xs) last v) [last] = v
          rw [getSegs, propIn_propSet_arrIdx xs last i v hi]
          by_cases hv : v = vundef
          · subst hv
            simp
          · rw [if_pos (by simpa [hv]), propGet_propSet_arrIdx xs last i v hi, getSegs]
      | vundef => simp [isContainer] at hc
      | vnull => simp [isContainer] at hc
      | vbool b => simp [isContainer] at hc
      | vnum n => simp [isContainer] at hc
      | vstr s => simp [isContainer] at hc
  | k :: k2 :: rest, obj, v, _, hc, hs => by
      have hchild : isContainer
          (if isContainer (propGet obj k) then propGet obj k else vobj []) = true := by
        cases hpg : propGet obj k <;> simp [isContainer]
      have hres : isContainer
          (setSegs (if isContainer (propGet obj k) then propGet obj k else vobj [])
            (k2 :: rest) v).1 = true :=
        setSegs_fst_isContainer v _ _ hchild
      have hih := getSegs_setSegs (k2 :: rest)
        (if isContainer (propGet obj k) then propGet obj k else vobj []) v
        (by simp) hchild
      cases obj with
      | vobj fs =>
          simp only [navSafe, isArr, Bool.not_false, Bool.true_or, Bool.true_and] at hs
          show getSegs (propSet (vobj fs) k _) (k :: k2 :: rest) = v
          rw [getSegs, propIn_propSet_obj, if_pos rfl, propGet_propSet_obj]
          exact hih hs
      | varr xs =>
          simp only [navSafe, isArr, Bool.not_true, Bool.false_or, Bool.and_eq_true] at hs
          obtain ⟨i, hi⟩ := Option.isSome_iff_exists.mp hs.1
          show getSegs (propSet (varr xs) k _) (k :: k2 :: rest) = v
          rw [getSegs, propIn_propSet_arrIdx xs k i _ hi,
            if_pos (by simpa using isContainer_ne_vundef hres),
            propGet_propSet_arrIdx xs k i _ hi]
          exact hih hs.2
      | vundef => simp [isContainer] at hc
      | vnull => simp [isContainer] at hc
      | vbool b => simp [isContainer] at hc
      | vnum n => simp [isContainer] at hc
      | vstr s => simp [isContainer] at hc

/-! ### Delete-walk lemmas (claims C3, C7) -/

mutual

/-- No object field stores JavaScript's `undefined` — true of every
value the specification's data model can denote (array holes are
allowed; they arise from `delete`).  A store CAN violate this by
calling `set(k, undefined)`, and `delete`-returns-false-on-absent
genuinely fails there, in the source as in the model. -/
def undefFree : Value → Bool
  | vobj fs => undefFreeFields fs
  | varr xs => undefFreeElems xs
  | _ => true

def undefFreeFields : List (String × Value) → Bool
  | [] => true
  | e :: fs => decide (e.2 ≠ vundef) && undefFree e.2 && undefFreeFields fs

def undefFreeElems : List Value → Bool
  | [] => true
  | x :: xs => undefFree x && undefFreeElems xs

end

/-- **Claim C1 (amended).**  `_setSync(k, v)` followed by `_getSync(k)`
answers a value structurally equal to `v` for every key whose resolved
segment sequence is non-empty (the key `"."` and its relatives resolve
to the empty sequence and break the claim), provided the root is a
container, the walk never writes a non-numeric array property (the
one array access the model does not carry), and no segment is an
inherited `Object.prototype` member name (on those, JavaScript's `in`
and reads see the prototype chain and assigning `"__proto__"` invokes
the inherited accessor — `set("__proto__", 5)` creates no own property
and `get` answers the prototype, breaking the claim). -/
theorem darkdb_C1_amended_set_get (db : DB) (key : String) (v : Value)
    (segs : List String) (db' : DB)
    (hres : resolvePath db.separator key = some segs)
    (hne : segs ≠ [])
    (hc : isContainer db.data = true)
    (hnav : navSafe db.data segs = true)
    (_hpf : protoFree segs = true)
    (hset : setSync db key v = some db') :
    getSync db' key = some v := by
  unfold setSync at hset
  rw [hres] at hset
  simp only [Option.map_some', Option.some_inj] at hset
  subst hset
  unfold getSync
  simp only [hres, Option.map_some', Option.some_inj]
  exact getSegs_setSegs segs db.data v hne hc hnav

theorem darkdb_C1_amended_witness :
    getSync { dbNew with data := vobj [("a", vobj [("b", vnum 7)])] } "a.b" =
      some (vnum 7) :=
  darkdb_C1_amended_set_get dbNew "a.b" (vnum 7) ["a", "b"]
    { dbNew with data := vobj [("a", vobj [("b", vnum 7)])] }
    (by decide) (by decide) (by decide) (by decide) (by decide) (by decide)

/-- **Claim C9 (amended).**  `push` appends to the array found at the
path — or to a fresh empty array when the value there is absent or not
an array — and stores the result back through `_setSync` (in the
existing-array case `arr.push` mutates the stored array in place before
`_setSync` re-assigns it, so the structural-change check compares the
array with itself and the index is left untouched).  `unpush` removes
elements strictly equal to `v` and stores back through `_setSync` ONLY
when an array was present; on an absent or non-array value it answers
an empty array and leaves the store unmodified — nothing is stored
back, contrary to the claim. -/
theorem darkdb_C9_amended_push_unpush :
    (∀ (db : DB) (key : String) (v : Value) (segs : List String) (xs : List Value)
        (res : DB × List Value),
        resolvePath db.separator key = some segs → segs ≠ [] →
        isContainer db.data = true → navSafe db.data segs = true →
        getSegs db.data segs = varr xs →
        pushOp db key v = some res →
        res.2 = xs ++ [v] ∧ getSync res.1 key = some (varr (xs ++ [v])) ∧
          res.1.index = db.index ∧ res.1.expires = db.expires) ∧
    (∀ (db : DB) (key : String) (v : Value) (segs : List String) (res : DB × List Value),
        resolvePath db.separator key = some segs → segs ≠ [] →
        isContainer db.data = true → navSafe db.data segs = true →
        isArr (getSegs db.data segs) = false →
        pushOp db key v = some res →
        res.2 = [v] ∧ getSync res.1 key = some (varr [v]) ∧
          setSync db key (varr [v]) = some res.1) ∧
    (∀ (db : DB) (key : String) (v : Value) (segs : List String) (xs : List Value)
        (res : DB × List Value),
        resolvePath db.separator key = some segs → segs ≠ [] →
        isContainer db.data = true → navSafe db.data segs = true →
        getSegs db.data segs = varr xs →
        unpushOp db key v = some res →
        res.2 = xs.filter (fun w => if w = vundef then false else !(jsStrictEq w v)) ∧
          getSync res.1 key = some (varr res.2) ∧
          setSync db key (varr res.2) = some res.1) ∧
    (∀ (db : DB) (key : String) (v : Value) (segs : List String),
        resolvePath db.separator key = some segs →
        isArr (getSegs db.data segs) = false →
        unpushOp db key v = some (db, [])) := by
  refine ⟨?_, ?_, ?_, ?_⟩
  · intro db key v segs xs res hres hne hc hnav hget hpush
    unfold pushOp getSync at hpush
    rw [hres] at hpush
    simp only [Option.map_some', Option.some_bind] at hpush
    rw [hget] at hpush
    simp only [hres, Option.map_some', Option.some_inj] at hpush
    subst hpush
    refine ⟨rfl, ?_, rfl, rfl⟩
    unfold getSync
    simp only [hres, Option.map_some', Option.some_inj]
    exact getSegs_setSegs segs db.data (varr (xs ++ [v])) hne hc hnav
  · intro db key v segs res hres hne hc hnav harr hpush
    unfold pushOp getSync at hpush
    rw [hres] at hpush
    simp only [Option.map_some', Option.some_bind] at hpush
    have hsync : setSync db key (varr [v]) = some
        { db with data := (setSegs db.data segs (varr [v])).1,
                  index := if stringify (setSegs db.data segs (varr [v])).2 ≠
                      stringify (varr [v]) then
                    imUpdate db.indexFields db.index key (varr [v]) else db.index } := by
      unfold setSync
      rw [hres]
      rfl
    have main : (setSync db key (varr [v])).map (fun db1 => (db1, [v])) = some res →
        res.2 = [v] ∧ getSync res.1 key = some (varr [v]) ∧
          setSync db key (varr [v]) = some res.1 := by
      intro hp
      rw [hsync] at hp
      simp only [Option.map_some', Option.some_inj] at hp
      subst hp
      refine ⟨rfl, ?_, hsync⟩
      unfold getSync
      simp only [hres, Option.map_some', Option.some_inj]
      exact getSegs_setSegs segs db.data (varr [v]) hne hc hnav
    cases hcur : getSegs db.data segs with
    | varr xs => rw [hcur] at harr; simp [isArr] at harr
    | vundef => rw [hcur] at hpush; exact main hpush
    | vnull => rw [hcur] at hpush; exact main hpush
    | vbool b => rw [hcur] at hpush; exact main hpush
    | vnum n => rw [hcur] at hpush; exact main hpush
    | vstr s => rw [hcur] at hpush; exact main hpush
    | vobj fs => rw [hcur] at hpush; exact main hpush
  · intro db key v segs xs res hres hne hc hnav hget hunpush
    unfold unpushOp getSync at hunpush
    rw [hres] at hunpush
    simp only [Option.map_some', Option.some_bind] at hunpush
    rw [hget] at hunpush
    have hunpush' : (setSync db key
        (varr (xs.filter (fun w => if w = vundef then false else !(jsStrictEq w v))))).map
          (fun db1 => (db1,
            xs.filter (fun w => if w = vundef then false else !(jsStrictEq w v)))) =
        some res := hunpush
    have hsync : setSync db key
        (varr (xs.filter (fun w => if w = vundef then false else !(jsStrictEq w v)))) =
        some { db with
          data := (setSegs db.data segs
            (varr (xs.filter (fun w => if w = vundef then false else
              !(jsStrictEq w v))))).1,
          index := if stringify (setSegs db.data segs
              (varr (xs.filter (fun w => if w = vundef then false else
                !(jsStrictEq w v))))).2 ≠
              stringify (varr (xs.filter (fun w => if w = vundef then false else
                !(jsStrictEq w v)))) then
            imUpdate db.indexFields db.index key
              (varr (xs.filter (fun w => if w = vundef then false else
                !(jsStrictEq w v))))
          else db.index } := by
      unfold setSync
      rw [hres]
      rfl
    rw [hsync] at hunpush'
    simp only [Option.map_some', Option.some_inj] at hunpush'
    subst hunpush'
    refine ⟨rfl, ?_, hsync⟩
    unfold getSync
    simp only [hres, Option.map_some', Option.some_inj]
    exact getSegs_setSegs segs db.data _ hne hc hnav
  · intro db key v segs hres harr
    unfold unpushOp getSync
    rw [hres]
    simp only [Option.map_some', Option.some_bind]
    cases hcur : getSegs db.data segs with
    | varr xs => rw [hcur] at harr; simp [isArr] at harr
    | vundef => rfl
    | vnull => rfl
    | vbool b => rfl
    | vnum n => rfl
    | vstr s => rfl
    | vobj fs => rfl

theorem darkdb_C9_amended_witness :
    pushOp { dbNew with data := vobj [("a", varr [vnum 1])] } "a" (vnum 5) =
        some ({ dbNew with data := vobj [("a", varr [vnum 1, vnum 5])] },
          [vnum 1, vnum 5]) ∧
      getSync { dbNew with data := vobj [("a", varr [vnum 1, vnum 5])] } "a" =
        some (varr [vnum 1, vnum 5]) ∧
      unpushOp dbNew "b" (vnum 5) = some (dbNew, []) := by
  refine ⟨by decide, ?_, ?_⟩
  · have h := (darkdb_C9_amended_push_unpush.1
      { dbNew with data := vobj [("a", varr [vnum 1])] } "a" (vnum 5) ["a"] [vnum 1]
      ({ dbNew with data := vobj [("a", varr [vnum 1, vnum 5])] }, [vnum 1, vnum 5])
      (by decide) (by decide) (by decide) (by decide) (by decide) (by decide))
    exact h.2.1
  · exact darkdb_C9_amended_push_unpush.2.2.2 dbNew "b" (vnum 5) ["b"]
      (by decide) (by decide)

/-! ### Index membership lemmas (claim C4) -/

/-- Well-formed index: token entries carry pairwise distinct tokens
(true of every index the `IndexManager` operations construct). -/
def wfKeys (idx : Index) : Prop := (idx.map Prod.fst).Nodup

theorem jsGet_eq_none_iff (m : List (String × α)) (k : String) :
    jsGet m k = none ↔ k ∉ m.map Prod.fst := by
  induction m with
  | nil => simp [jsGet]
  | cons e es ih =>
      by_cases he : e.1 = k
      · simp [jsGet, he]
      · simp [jsGet, he, ih, Ne.symm he]

theorem jsGet_append (m1 m2 : List (String × α)) (k : String) :
    jsGet (m1 ++ m2) k =
      match jsGet m1 k with
      | some v => some v
      | none => jsGet m2 k := by
  induction m1 with
  | nil => simp [jsGet]
  | cons e es ih =>
      by_cases he : e.1 = k
      · simp [jsGet, he]
      · simp [jsGet, he, ih]

theorem jsSet_map_fst_of_mem (m : List (String × α)) (k : String) (v v' : α)
    (h : jsGet m k = some v') : (jsSet m k v).map Prod.fst = m.map Prod.fst := by
  induction m with
  | nil => simp [jsGet] at h
  | cons e es ih =>
      by_cases he : e.1 = k
      · simp [jsSet, he]
      · rw [jsGet, if_neg he] at h
        simp [jsSet, he, ih h]

theorem postings_imAddWord (idx : Index) (w k : String) (t p : String) :
    p ∈ postings (imAddWord idx w k) t ↔
      p ∈ postings idx t ∨ (p = k ∧ t = w) := by
  unfold imAddWord
  cases hg : jsGet idx w with
  | some ks =>
      by_cases htw : t = w
      · subst htw
        rw [postings, jsGet_jsSet_self, Option.getD_some, postings, hg, Option.getD_some]
        by_cases hc : ks.contains k
        · rw [if_pos hc]
          constructor
          · intro hp; exact Or.inl hp
          · rintro (hp | ⟨hp, -⟩)
            · exact hp
            · subst hp; exact List.elem_iff.mp hc
        · rw [if_neg hc]
          simp only [List.mem_append, List.mem_singleton]
          tauto
      · rw [postings, jsGet_jsSet_ne _ _ _ _ htw, ← postings]
        simp [htw]
  | none =>
      rw [postings, jsGet_append]
      by_cases htw : t = w
      · rw [htw, hg]
        simp only [postings, hg]
        simp [jsGet]
      · cases hgt : jsGet idx t with
        | some vs =>
            simp only [postings, hgt, Option.getD_some]
            simp [htw]
        | none =>
            simp only [postings, hgt, Option.getD_none]
            have hwt : ¬ w = t := fun h => htw h.symm
            simp [jsGet, hwt, htw]

theorem wfKeys_imAddWord (idx : Index) (w k : String) (h : wfKeys idx) :
    wfKeys (imAddWord idx w k) := by
  unfold imAddWord
  cases hg : jsGet idx w with
  | some ks =>
      unfold wfKeys
      rw [jsSet_map_fst_of_mem _ _ _ _ hg]
      exact h
  | none =>
      unfold wfKeys
      rw [List.map_append]
      rw [List.nodup_append]
      refine ⟨h, List.nodup_singleton _, ?_⟩
      intro a ha hb
      simp only [List.map_cons, List.map_nil, List.mem_singleton] at hb
      subst hb
      exact (jsGet_eq_none_iff idx _).mp hg ha

theorem postings_wordsFold (k : String) :
    ∀ (ws : List String) (idx : Index) (t p : String),
      p ∈ postings (ws.foldl (fun a w => imAddWord a w k) idx) t ↔
        p ∈ postings idx t ∨ (p = k ∧ t ∈ ws)
  | [], idx, t, p => by simp
  | w :: ws, idx, t, p => by
      rw [List.foldl_cons, postings_wordsFold k ws (imAddWord idx w k) t p,
        postings_imAddWord]
      simp only [List.mem_cons]
      tauto

theorem wfKeys_wordsFold (k : String) :
    ∀ (ws : List String) (idx : Index), wfKeys idx →
      wfKeys (ws.foldl (fun a w => imAddWord a w k) idx)
  | [], idx, h => h
  | w :: ws, idx, h => by
      rw [List.foldl_cons]
      exact wfKeys_wordsFold k ws (imAddWord idx w k) (wfKeys_imAddWord idx w k h)

theorem jsGet_of_mem_wf {idx : Index} (hw : wfKeys idx) {e : String × List String}
    (hm : e ∈ idx) : jsGet idx e.1 = some e.2 := by
  induction idx with
  | nil => simp at hm
  | cons f fs ih =>
      rw [wfKeys, List.map_cons, List.nodup_cons] at hw
      rcases List.mem_cons.mp hm with h | h
      · subst h
        rw [jsGet, if_pos rfl]
      · have hne : f.1 ≠ e.1 := by
          intro hc
          exact hw.1 (hc ▸ List.mem_map_of_mem Prod.fst h)
        rw [jsGet, if_neg hne]
        exact ih hw.2 h

theorem jsGet_imDelete_none {idx : Index} {t : String} (k : String)
    (h : jsGet idx t = none) : jsGet (imDelete idx k) t = none := by
  induction idx with
  | nil => rfl
  | cons e es ih =>
      by_cases he : e.1 = t
      · rw [jsGet, if_pos he] at h
        simp at h
      · rw [jsGet, if_neg he] at h
        rw [imDelete]
        by_cases hc : e.2.contains k
        · rw [if_pos hc]
          by_cases hemp : e.2.filter (fun x => x ≠ k) = []
          · rw [if_pos hemp]
            exact ih h
          · rw [if_neg hemp, jsGet, if_neg he]
            exact ih h
        · rw [if_neg hc, jsGet, if_neg he]
          exact ih h

theorem imDelete_keys_sub (idx : Index) (k : String) :
    ∀ a, a ∈ (imDelete idx k).map Prod.fst → a ∈ idx.map Prod.fst := by
  induction idx with
  | nil => intro a ha; simpa [imDelete] using ha
  | cons e es ih =>
      intro a ha
      rw [imDelete] at ha
      by_cases hc : e.2.contains k
      · rw [if_pos hc] at ha
        by_cases hemp : e.2.filter (fun x => x ≠ k) = []
        · rw [if_pos hemp] at ha
          exact List.mem_cons_of_mem _ (ih a ha)
        · rw [if_neg hemp] at ha
          rcases List.mem_cons.mp ha with h | h
          · simp only [List.map_cons] at h ⊢
            exact List.mem_cons.mpr (Or.inl h)
          · exact List.mem_cons_of_mem _ (ih a h)
      · rw [if_neg hc] at ha
        rcases List.mem_cons.mp ha with h | h
        · exact List.mem_cons.mpr (Or.inl h)
        · exact List.mem_cons_of_mem _ (ih a h)

theorem wfKeys_imDelete (idx : Index) (k : String) (hw : wfKeys idx) :
    wfKeys (imDelete idx k) := by
  induction idx with
  | nil => exact hw
  | cons e es ih =>
      rw [wfKeys, List.map_cons, List.nodup_cons] at hw
      rw [imDelete]
      by_cases hc : e.2.contains k
      · rw [if_pos hc]
        by_cases hemp : e.2.filter (fun x => x ≠ k) = []
        · rw [if_pos hemp]
          exact ih hw.2
        · rw [if_neg hemp, wfKeys, List.map_cons, List.nodup_cons]
          exact ⟨fun hmem => hw.1 (imDelete_keys_sub es k _ hmem), ih hw.2⟩
      · rw [if_neg hc, wfKeys, List.map_cons, List.nodup_cons]
        exact ⟨fun hmem => hw.1 (imDelete_keys_sub es k _ hmem), ih hw.2⟩

theorem imDelete_of_fresh (idx : Index) (k : String) (hw : wfKeys idx)
    (hf : ∀ t, k ∉ postings idx t) : imDelete idx k = idx := by
  induction idx with
  | nil => rfl
  | cons e es ih =>
      rw [wfKeys, List.map_cons, List.nodup_cons] at hw
      have hke : k ∉ e.2 := by
        have := hf e.1
        rw [postings, jsGet, if_pos rfl, Option.getD_some] at this
        exact this
      have hfes : ∀ t, k ∉ postings es t := by
        intro t
        by_cases hte : e.1 = t
        · rw [postings, (jsGet_eq_none_iff es t).mpr (hte ▸ hw.1)]
          simp
        · have := hf t
          rw [postings, jsGet, if_neg hte] at this
          rw [postings]
          exact this
      rw [imDelete, if_neg (fun hc => hke (List.elem_iff.mp hc)), ih hw.2 hfes]

theorem postings_imDelete (idx : Index) (k : String) (hw : wfKeys idx) (t p : String) :
    p ∈ postings (imDelete idx k) t ↔ p ∈ postings idx t ∧ p ≠ k := by
  induction idx with
  | nil => simp [imDelete, postings, jsGet]
  | cons e es ih =>
      rw [wfKeys, List.map_cons, List.nodup_cons] at hw
      rw [imDelete]
      by_cases hc : e.2.contains k
      · by_cases hemp : e.2.filter (fun x => x ≠ k) = []
        · rw [if_pos hc, if_pos hemp]
          by_cases hte : e.1 = t
          · rw [show postings (imDelete es k) t = [] from by
              rw [postings, jsGet_imDelete_none k
                ((jsGet_eq_none_iff es t).mpr (hte ▸ hw.1))]
              rfl]
            rw [postings, jsGet, if_pos hte, Option.getD_some]
            constructor
            · intro hp; simp at hp
            · rintro ⟨hp, hpk⟩
              exfalso
              have hmem : p ∈ e.2.filter (fun x => x ≠ k) :=
                List.mem_filter.mpr ⟨hp, by simpa using hpk⟩
              rw [hemp] at hmem
              simp at hmem
          · have hpost : postings (e :: es) t = postings es t := by
              rw [postings, jsGet, if_neg hte, ← postings]
            rw [hpost]
            exact ih hw.2
        · rw [if_pos hc, if_neg hemp]
          by_cases hte : e.1 = t
          · rw [postings, jsGet, if_pos hte, Option.getD_some,
              postings, jsGet, if_pos hte, Option.getD_some]
            rw [List.mem_filter]
            simp
          · rw [postings, jsGet, if_neg hte, postings, jsGet, if_neg hte,
              ← postings, ← postings]
            exact ih hw.2
      · rw [if_neg hc]
        by_cases hte : e.1 = t
        · rw [postings, jsGet, if_pos hte, Option.getD_some,
            postings, jsGet, if_pos hte, Option.getD_some]
          constructor
          · intro hp
            refine ⟨hp, fun hpk => ?_⟩
            subst hpk
            exact hc (List.elem_iff.mpr hp)
          · exact fun hp => hp.1
        · rw [postings, jsGet, if_neg hte, postings, jsGet, if_neg hte,
            ← postings, ← postings]
          exact ih hw.2

theorem imDelete_drop_empty (idx : Index) (k t : String) (ks : List String)
    (hw : wfKeys idx) (hg : jsGet idx t = some ks) (hc : ks.contains k)
    (hemp : ks.filter (fun x => x ≠ k) = []) :
    jsGet (imDelete idx k) t = none := by
  induction idx with
  | nil => simp [jsGet] at hg
  | cons e es ih =>
      rw [wfKeys, List.map_cons, List.nodup_cons] at hw
      rw [imDelete]
      by_cases hte : e.1 = t
      · rw [jsGet, if_pos hte, Option.some_inj] at hg
        subst hg
        rw [if_pos hc, if_pos hemp]
        exact jsGet_imDelete_none k ((jsGet_eq_none_iff es t).mpr (hte ▸ hw.1))
      · rw [jsGet, if_neg hte] at hg
        have hrec := ih hw.2 hg
        by_cases hce : e.2.contains k
        · rw [if_pos hce]
          by_cases hempe : e.2.filter (fun x => x ≠ k) = []
          · rw [if_pos hempe]
            exact hrec
          · rw [if_neg hempe, jsGet, if_neg hte]
            exact hrec
        · rw [if_neg hce, jsGet, if_neg hte]
          exact hrec

theorem docTokensStep_shift (v : Value) (A : List String) (f : String) :
    docTokensStep v A f = A ++ docTokensStep v [] f := by
  unfold docTokensStep
  cases propGet v f with
  | vstr s => by_cases hs : s ≠ "" <;> simp [hs]
  | vundef => simp
  | vnull => simp
  | vbool b => simp
  | vnum n => simp
  | varr xs => simp
  | vobj fs => simp

theorem docTokensFold_shift (v : Value) :
    ∀ (fields : List String) (A : List String),
      fields.foldl (docTokensStep v) A = A ++ fields.foldl (docTokensStep v) []
  | [], A => by simp
  | f :: fs, A => by
      rw [List.foldl_cons, List.foldl_cons,
        docTokensFold_shift v fs (docTokensStep v A f),
        docTokensFold_shift v fs (docTokensStep v [] f),
        docTokensStep_shift v A f, List.append_assoc]

theorem postings_imUpdateStep (k : String) (v : Value) (idx : Index) (f : String)
    (t p : String) :
    p ∈ postings (imUpdateStep k v idx f) t ↔
      p ∈ postings idx t ∨ (p = k ∧ t ∈ docTokensStep v [] f) := by
  unfold imUpdateStep docTokensStep
  cases propGet v f with
  | vstr s =>
      show p ∈ postings (if s ≠ "" then imIndexText idx k s else idx) t ↔
        p ∈ postings idx t ∨ (p = k ∧ t ∈ if s ≠ "" then [] ++ tokenize s else [])
      by_cases hs : s ≠ ""
      · rw [if_pos hs, if_pos hs, imIndexText, postings_wordsFold, List.nil_append]
      · rw [if_neg hs, if_neg hs]
        simp
  | vundef => simp
  | vnull => simp
  | vbool b => simp
  | vnum n => simp
  | varr xs => simp
  | vobj fs => simp

theorem wfKeys_imUpdateStep (k : String) (v : Value) (idx : Index) (f : String)
    (hw : wfKeys idx) : wfKeys (imUpdateStep k v idx f) := by
  unfold imUpdateStep
  cases propGet v f with
  | vstr s =>
      show wfKeys (if s ≠ "" then imIndexText idx k s else idx)
      by_cases hs : s ≠ ""
      · rw [if_pos hs, imIndexText]
        exact wfKeys_wordsFold k _ idx hw
      · rw [if_neg hs]
        exact hw
  | vundef => exact hw
  | vnull => exact hw
  | vbool b => exact hw
  | vnum n => exact hw
  | varr xs => exact hw
  | vobj fs => exact hw

theorem postings_updFold (k : String) (v : Value) :
    ∀ (fields : List String) (idx : Index) (t p : String),
      p ∈ postings (fields.foldl (imUpdateStep k v) idx) t ↔
        p ∈ postings idx t ∨ (p = k ∧ t ∈ fields.foldl (docTokensStep v) [])
  | [], idx, t, p => by simp
  | f :: fs, idx, t, p => by
      rw [List.foldl_cons, postings_updFold k v fs (imUpdateStep k v idx f) t p,
        postings_imUpdateStep, List.foldl_cons,
        docTokensFold_shift v fs (docTokensStep v [] f), List.mem_append]
      tauto

theorem wfKeys_updFold (k : String) (v : Value) :
    ∀ (fields : List String) (idx : Index), wfKeys idx →
      wfKeys (fields.foldl (imUpdateStep k v) idx)
  | [], _, h => h
  | f :: fs, idx, h => by
      rw [List.foldl_cons]
      exact wfKeys_updFold k v fs _ (wfKeys_imUpdateStep k v idx f h)

theorem postings_imUpdate_fresh (fields : List String) (idx : Index) (k : String)
    (v : Value) (hw : wfKeys idx) (hf : ∀ t, k ∉ postings idx t) (t p : String) :
    p ∈ postings (imUpdate fields idx k v) t ↔
      p ∈ postings idx t ∨ (p = k ∧ t ∈ docTokens fields v) := by
  simp only [imUpdate]
  rw [imDelete_of_fresh idx k hw hf]
  by_cases hc : isContainer v
  · rw [if_pos hc, docTokens, if_pos hc]
    exact postings_updFold k v fields idx t p
  · rw [if_neg hc, docTokens, if_neg hc]
    simp

theorem wfKeys_imUpdate (fields : List String) (idx : Index) (k : String) (v : Value)
    (hw : wfKeys idx) : wfKeys (imUpdate fields idx k v) := by
  simp only [imUpdate]
  by_cases hc : isContainer v
  · rw [if_pos hc]
    exact wfKeys_updFold k v fields _ (wfKeys_imDelete idx k hw)
  · rw [if_neg hc]
    exact wfKeys_imDelete idx k hw

mutual

/-- Correctness of the full-tree walk: starting from an index with no
posting for any of the subtree's path keys (pairwise distinct), the
walk adds exactly one posting per subtree document containing the
token. -/
theorem indexRec_correct (sep : String) (fields : List String) :
    ∀ (v : Value) (idx : Index) (cur : String),
      wfKeys idx →
      (∀ q ∈ (subdocs sep v cur).map Prod.fst, ∀ t, q ∉ postings idx t) →
      ((subdocs sep v cur).map Prod.fst).Nodup →
      wfKeys (indexRec sep fields idx v cur) ∧
      ∀ t p, p ∈ postings (indexRec sep fields idx v cur) t ↔
        p ∈ postings idx t ∨
          ∃ w, (p, w) ∈ subdocs sep v cur ∧ t ∈ docTokens fields w
  | vobj fs, idx, cur => by
      intro hw hf hnd
      rw [subdocs, List.map_cons] at hf hnd
      rw [List.nodup_cons] at hnd
      have hcurfresh : ∀ t, cur ∉ postings idx t :=
        fun t => hf cur (List.mem_cons_self _ _) t
      have hiff1 := postings_imUpdate_fresh fields idx cur (vobj fs) hw hcurfresh
      have hwf1 : wfKeys (imUpdate fields idx cur (vobj fs)) :=
        wfKeys_imUpdate fields idx cur (vobj fs) hw
      have hf1 : ∀ q ∈ (subdocsFields sep fs cur).map Prod.fst, ∀ t,
          q ∉ postings (imUpdate fields idx cur (vobj fs)) t := by
        intro q hq t hmem
        rcases (hiff1 t q).mp hmem with h | ⟨hqc, -⟩
        · exact hf q (List.mem_cons_of_mem _ hq) t h
        · exact hnd.1 (hqc ▸ hq)
      have hrec := indexRecFields_correct sep fields fs
        (imUpdate fields idx cur (vobj fs)) cur hwf1 hf1 hnd.2
      rw [indexRec]
      refine ⟨hrec.1, fun t p => ?_⟩
      rw [hrec.2 t p, hiff1 t p, subdocs]
      constructor
      · rintro ((h | ⟨hpc, ht⟩) | ⟨w, hm, ht⟩)
        · exact Or.inl h
        · exact Or.inr ⟨vobj fs, by rw [hpc]; exact List.mem_cons_self _ _, ht⟩
        · exact Or.inr ⟨w, List.mem_cons_of_mem _ hm, ht⟩
      · rintro (h | ⟨w, hm, ht⟩)
        · exact Or.inl (Or.inl h)
        · rcases List.mem_cons.mp hm with h1 | h1
          · injection h1 with hp hwv
            exact Or.inl (Or.inr ⟨hp, hwv ▸ ht⟩)
          · exact Or.inr ⟨w, h1, ht⟩
  | varr xs, idx, cur => by
      intro hw hf hnd
      rw [subdocs, List.map_cons] at hf hnd
      rw [List.nodup_cons] at hnd
      have hcurfresh : ∀ t, cur ∉ postings idx t :=
        fun t => hf cur (List.mem_cons_self _ _) t
      have hiff1 := postings_imUpdate_fresh fields idx cur (varr xs) hw hcurfresh
      have hwf1 : wfKeys (imUpdate fields idx cur (varr xs)) :=
        wfKeys_imUpdate fields idx cur (varr xs) hw
      have hf1 : ∀ q ∈ (subdocsElems sep xs 0 cur).map Prod.fst, ∀ t,
          q ∉ postings (imUpdate fields idx cur (varr xs)) t := by
        intro q hq t hmem
        rcases (hiff1 t q).mp hmem with h | ⟨hqc, -⟩
        · exact hf q (List.mem_cons_of_mem _ hq) t h
        · exact hnd.1 (hqc ▸ hq)
      have hrec := indexRecElems_correct sep fields xs
        (imUpdate fields idx cur (varr xs)) 0 cur hwf1 hf1 hnd.2
      rw [indexRec]
      refine ⟨hrec.1, fun t p => ?_⟩
      rw [hrec.2 t p, hiff1 t p, subdocs]
      constructor
      · rintro ((h | ⟨hpc, ht⟩) | ⟨w, hm, ht⟩)
        · exact Or.inl h
        · exact Or.inr ⟨varr xs, by rw [hpc]; exact List.mem_cons_self _ _, ht⟩
        · exact Or.inr ⟨w, List.mem_cons_of_mem _ hm, ht⟩
      · rintro (h | ⟨w, hm, ht⟩)
        · exact Or.inl (Or.inl h)
        · rcases List.mem_cons.mp hm with h1 | h1
          · injection h1 with hp hwv
            exact Or.inl (Or.inr ⟨hp, hwv ▸ ht⟩)
          · exact Or.inr ⟨w, h1, ht⟩
  | vundef, idx, cur => by
      intro hw _ _
      refine ⟨?_, fun t p => ?_⟩ <;> simp [indexRec, subdocs, hw]
  | vnull, idx, cur => by
      intro hw _ _
      refine ⟨?_, fun t p => ?_⟩ <;> simp [indexRec, subdocs, hw]
  | vbool b, idx, cur => by
      intro hw _ _
      refine ⟨?_, fun t p => ?_⟩ <;> simp [indexRec, subdocs, hw]
  | vnum n, idx, cur => by
      intro hw _ _
      refine ⟨?_, fun t p => ?_⟩ <;> simp [indexRec, subdocs, hw]
  | vstr s, idx, cur => by
      intro hw _ _
      refine ⟨?_, fun t p => ?_⟩ <;> simp [indexRec, subdocs, hw]

/-- Correctness of the object-fields walk (same invariant, ranged over
the fields' subtrees). -/
theorem indexRecFields_correct (sep : String) (fields : List String) :
    ∀ (fs : List (String × Value)) (idx : Index) (cur : String),
      wfKeys idx →
      (∀ q ∈ (subdocsFields sep fs cur).map Prod.fst, ∀ t, q ∉ postings idx t) →
      ((subdocsFields sep fs cur).map Prod.fst).Nodup →
      wfKeys (indexRecFields sep fields idx fs cur) ∧
      ∀ t p, p ∈ postings (indexRecFields sep fields idx fs cur) t ↔
        p ∈ postings idx t ∨
          ∃ w, (p, w) ∈ subdocsFields sep fs cur ∧ t ∈ docTokens fields w
  | [], idx, cur => by
      intro hw _ _
      refine ⟨?_, fun t p => ?_⟩ <;> simp [indexRecFields, subdocsFields, hw]
  | (k, c) :: fs, idx, cur => by
      intro hw hf hnd
      rw [subdocsFields, List.map_append] at hf hnd
      rw [List.nodup_append] at hnd
      obtain ⟨hndA, hndB, hdisj⟩ := hnd
      have hfA : ∀ q ∈ (subdocs sep c (childKey sep cur k)).map Prod.fst, ∀ t,
          q ∉ postings idx t :=
        fun q hq t => hf q (List.mem_append_left _ hq) t
      have hrecA := indexRec_correct sep fields c idx (childKey sep cur k) hw hfA hndA
      have hfB : ∀ q ∈ (subdocsFields sep fs cur).map Prod.fst, ∀ t,
          q ∉ postings (indexRec sep fields idx c (childKey sep cur k)) t := by
        intro q hq t hmem
        rcases (hrecA.2 t q).mp hmem with h | ⟨w, hwm, -⟩
        · exact hf q (List.mem_append_right _ hq) t h
        · exact hdisj (List.mem_map_of_mem Prod.fst hwm) hq
      have hrecB := indexRecFields_correct sep fields fs
        (indexRec sep fields idx c (childKey sep cur k)) cur hrecA.1 hfB hndB
      rw [indexRecFields]
      refine ⟨hrecB.1, fun t p => ?_⟩
      rw [hrecB.2 t p, hrecA.2 t p, subdocsFields]
      constructor
      · rintro ((h | ⟨w, h1, h2⟩) | ⟨w, h1, h2⟩)
        · exact Or.inl h
        · exact Or.inr ⟨w, List.mem_append_left _ h1, h2⟩
        · exact Or.inr ⟨w, List.mem_append_right _ h1, h2⟩
      · rintro (h | ⟨w, h1, h2⟩)
        · exact Or.inl (Or.inl h)
        · rcases List.mem_append.mp h1 with hm | hm
          · exact Or.inl (Or.inr ⟨w, hm, h2⟩)
          · exact Or.inr ⟨w, hm, h2⟩

/-- Correctness of the array-elements walk (holes are skipped exactly
as `subdocsElems` skips them). -/
theorem indexRecElems_correct (sep : String) (fields : List String) :
    ∀ (xs : List Value) (idx : Index) (i : Nat) (cur : String),
      wfKeys idx →
      (∀ q ∈ (subdocsElems sep xs i cur).map Prod.fst, ∀ t, q ∉ postings idx t) →
      ((subdocsElems sep xs i cur).map Prod.fst).Nodup →
      wfKeys (indexRecElems sep fields idx xs i cur) ∧
      ∀ t p, p ∈ postings (indexRecElems sep fields idx xs i cur) t ↔
        p ∈ postings idx t ∨
          ∃ w, (p, w) ∈ subdocsElems sep xs i cur ∧ t ∈ docTokens fields w
  | [], idx, i, cur => by
      intro hw _ _
      refine ⟨?_, fun t p => ?_⟩ <;> simp [indexRecElems, subdocsElems, hw]
  | x :: xs, idx, i, cur => by
      intro hw hf hnd
      rw [subdocsElems] at hf hnd
      rw [indexRecElems]
      by_cases hx : x = vundef
      · rw [if_pos hx] at hf hnd ⊢
        simp only [List.nil_append] at hf hnd
        have hrec := indexRecElems_correct sep fields xs idx (i + 1) cur hw hf hnd
        refine ⟨hrec.1, fun t p => ?_⟩
        rw [hrec.2 t p, subdocsElems, if_pos hx, List.nil_append]
      · rw [if_neg hx] at hf hnd ⊢
        rw [List.map_append] at hf hnd
        rw [List.nodup_append] at hnd
        obtain ⟨hndA, hndB, hdisj⟩ := hnd
        have hfA : ∀ q ∈ (subdocs sep x (childKey sep cur (toString i))).map Prod.fst,
            ∀ t, q ∉ postings idx t :=
          fun q hq t => hf q (List.mem_append_left _ hq) t
        have hrecA := indexRec_correct sep fields x idx
          (childKey sep cur (toString i)) hw hfA hndA
        have hfB : ∀ q ∈ (subdocsElems sep xs (i + 1) cur).map Prod.fst, ∀ t,
            q ∉ postings (indexRec sep fields idx x (childKey sep cur (toString i))) t := by
          intro q hq t hmem
          rcases (hrecA.2 t q).mp hmem with h | ⟨w, hwm, -⟩
          · exact hf q (List.mem_append_right _ hq) t h
          · exact hdisj (List.mem_map_of_mem Prod.fst hwm) hq
        have hrecB := indexRecElems_correct sep fields xs
          (indexRec sep fields idx x (childKey sep cur (toString i))) (i + 1) cur
          hrecA.1 hfB hndB
        refine ⟨hrecB.1, fun t p => ?_⟩
        rw [hrecB.2 t p, hrecA.2 t p, subdocsElems, if_neg hx]
        constructor
        · rintro ((h | ⟨w, h1, h2⟩) | ⟨w, h1, h2⟩)
          · exact Or.inl h
          · exact Or.inr ⟨w, List.mem_append_left _ h1, h2⟩
          · exact Or.inr ⟨w, List.mem_append_right _ h1, h2⟩
        · rintro (h | ⟨w, h1, h2⟩)
          · exact Or.inl (Or.inl h)
          · rcases List.mem_append.mp h1 with hm | hm
            · exact Or.inl (Or.inr ⟨w, hm, h2⟩)
            · exact Or.inr ⟨w, hm, h2⟩

end

/-- **Claim C4 (amended).**  The exact-index invariant holds after the
operations that call `_rebuildIndex` (import, restore, load, a
committed transaction) but NOT after plain `set`/`delete`, which only
re-index the exact key written (see the counterexample).  Stated here:
(1) when the document paths of the tree are pairwise distinct,
`_rebuildIndex` produces a well-formed index mapping each token to
exactly the paths of the documents (the nested ones included) whose
configured text fields contain it; and (2) `IndexManager.delete`
removes the path from every token's posting set — and nothing else —
dropping a token entry whose posting set becomes empty. -/
theorem darkdb_C4_amended (sep : String) (fields : List String) (data : Value)
    (hnd : ((subdocs sep data "").map Prod.fst).Nodup) :
    (wfKeys (rebuildIndex sep fields data) ∧
      ∀ t p, p ∈ postings (rebuildIndex sep fields data) t ↔
        ∃ w, (p, w) ∈ subdocs sep data "" ∧ t ∈ docTokens fields w) ∧
    (∀ (idx : Index) (k : String), wfKeys idx →
      (∀ t p, p ∈ postings (imDelete idx k) t ↔ p ∈ postings idx t ∧ p ≠ k) ∧
      (∀ t ks, jsGet idx t = some ks → ks.contains k = true →
        ks.filter (fun x => x ≠ k) = [] → jsGet (imDelete idx k) t = none)) := by
  constructor
  · have h := indexRec_correct sep fields data [] ""
      (by simp [wfKeys])
      (by intro q _ t; simp [postings, jsGet])
      hnd
    rw [rebuildIndex]
    refine ⟨h.1, fun t p => ?_⟩
    rw [h.2 t p]
    simp [postings, jsGet]
  · intro idx k hw
    exact ⟨fun t p => postings_imDelete idx k hw t p,
      fun t ks hg hc hemp => imDelete_drop_empty idx k t ks hw hg hc hemp⟩

/-- Witness for `darkdb_C4_amended` at a concrete store: distinct
document paths, and the rebuilt index posts `"a"` under token
`"node"`. -/
theorem darkdb_C4_amended_witness :
    ((subdocs "." (vobj [("a", vobj [("title", vstr "node")])]) "").map Prod.fst).Nodup ∧
      "a" ∈ postings
        (rebuildIndex "." ["title"] (vobj [("a", vobj [("title", vstr "node")])])) "node" := by
  refine ⟨by decide, ?_⟩
  have h := darkdb_C4_amended "." ["title"]
    (vobj [("a", vobj [("title", vstr "node")])]) (by decide)
  rw [h.1.2 "node" "a"]
  exact ⟨vobj [("title", vstr "node")], by decide, by decide⟩

/-! ### Counterexamples at concrete inputs -/

/-- **Claim C1, counterexample.**  The key `"."` resolves to an empty
segment list: `_setSync` then stores the value under the root property
`"undefined"` (the coerced `keys[keys.length - 1]`), while `_getSync`
answers the whole root object, which is not structurally equal to the
stored value. -/
theorem darkdb_C1_counterexample :
    (setSync dbNew "." (vnum 0)).bind (fun db => getSync db ".") =
        some (vobj [("undefined", vnum 0)]) ∧
      vobj [("undefined", vnum 0)] ≠ vnum 0 := by
  decide

/-- **Claim C9, counterexample.**  `unpush` on a key holding no array
answers an empty array WITHOUT storing it back: afterwards the key is
still absent, where the claim demands an empty array stored at the
path via `set`. -/
theorem darkdb_C9_counterexample :
    unpushOp dbNew "a" (vnum 5) = some (dbNew, []) ∧
      getSync dbNew "a" = some vundef := by
  decide

/-- **Claim C4, counterexample.**  From an empty store,
`_setSync("docs", \x7binner: \x7btitle: "node"\x7d\x7d)` indexes only the exact
path `"docs"` (whose own indexed fields hold no text): the nested
document path `"docs.inner"`, whose `title` field tokenizes to
`["node"]`, receives no posting, so the index does not reflect the
document tree. -/
theorem darkdb_C4_counterexample :
    (setSync dbNew "docs" (vobj [("inner", vobj [("title", vstr "node")])])).map DB.index =
        some [] ∧
      (subdocs "." (vobj [("docs", vobj [("inner", vobj [("title", vstr "node")])])]) "").any
        (fun e => e.1 = "docs.inner" &&
          (docTokens ["title", "description"] e.2).contains "node") = true := by
  decide

/-- **Claim C6, counterexample.**  A falsy non-sequence `$and` value
(`0`) raises no `InvalidFilter`: the combinator check is a truthiness
test, so the filter is evaluated as an ordinary field comparison and
answers `false`; and an operator object holding an unknown key
(`$bogus`) after a failing known operator answers `false` instead of
raising `UnknownOperator`. -/
theorem darkdb_C6_counterexample :
    matchDoc (vobj []) (vobj [("$and", vnum 0)]) = .ok false ∧
      matchDoc (vobj []) (vobj [("age", vobj [("$eq", vnum 5), ("$bogus", vnum 1)])]) =
        .ok false := by
  decide

/-- **Claim C8, counterexample.**  In `set`'s action order the `set`
event is emitted from inside `_setSync`, strictly BEFORE the `post`
hooks run — the claim requires it strictly after them. -/
theorem darkdb_C8_counterexample :
    stepIdx (.emitEvt "set") (setSteps "balance") <
      stepIdx (.runPost "set") (setSteps "balance") := by
  decide

/-! ### Claim C8 (amended): events fire after the mutation, before the post hooks -/

/-- **Claim C8 (amended).**  For `set` and `delete`, the event(s) and
the catch-all `change` event fire strictly after the in-memory
mutation, but strictly BEFORE that operation's `post` hooks: `_emit`
runs inside `_setSync`/`_deleteSync`, and the `post` hooks only
afterwards in the public wrapper. -/
theorem darkdb_C8_amended_events_before_post (k : String) :
    (stepIdx (.mutate k) (setSteps k) < stepIdx (.emitEvt "set") (setSteps k) ∧
      stepIdx (.emitEvt "set") (setSteps k) < stepIdx (.emitEvt "change") (setSteps k) ∧
      stepIdx (.emitEvt "change") (setSteps k) < stepIdx (.runPost "set") (setSteps k)) ∧
    (stepIdx (.mutate k) (deleteSteps k) < stepIdx (.emitEvt "delete") (deleteSteps k) ∧
      stepIdx (.emitEvt "delete") (deleteSteps k) < stepIdx (.emitEvt "change") (deleteSteps k) ∧
      stepIdx (.emitEvt "change") (deleteSteps k) < stepIdx (.runPost "delete") (deleteSteps k)) := by
  simp [setSteps, setSyncSteps, deleteSteps, deleteSyncSteps, stepIdx]

/-! ### Claim C6 (amended): matcher error semantics -/

/-- **Claim C6 (amended).**  A truthy non-sequence value of `$and` (or,
with `$and` falsy, of `$or`) fails with `InvalidFilter`; an unknown
operator key fails with `UnknownOperator` when evaluation reaches it
(here: the first operator of the first rule, with no combinator keys
present); but a falsy `$and` value raises nothing — it is evaluated as
an ordinary strict-equality field comparison (`null` aside, which
raises a `TypeError` from `Object.entries(null)`). -/
theorem darkdb_C6_amended_matcher_errors :
    (∀ (n : Nat) (obj cond : Value), isContainer cond = true →
        jsTruthy (propGet cond "$and") = true → isArr (propGet cond "$and") = false →
        matchF (n + 1) obj cond = .error (.invalidFilter "$and must be array")) ∧
    (∀ (n : Nat) (obj cond : Value), isContainer cond = true →
        jsTruthy (propGet cond "$and") = false →
        jsTruthy (propGet cond "$or") = true → isArr (propGet cond "$or") = false →
        matchF (n + 1) obj cond = .error (.invalidFilter "$or must be array")) ∧
    (∀ (n : Nat) (obj : Value) (f op : String) (cmp : Value)
        (restOps : List (String × Value)),
        obj ≠ vnull → obj ≠ vundef →
        f ≠ "$and" → f ≠ "$or" → f ≠ "$not" →
        op ∉ (["$eq", "$ne", "$gt", "$gte", "$lt", "$lte", "$in", "$nin", "$regex"] :
          List String) →
        matchF (n + 1) obj (vobj [(f, vobj ((op, cmp) :: restOps))]) =
          .error (.unknownOperator op)) ∧
    (∀ (n : Nat) (obj v : Value), obj ≠ vnull → obj ≠ vundef →
        jsTruthy v = false → v ≠ vnull →
        matchF (n + 1) obj (vobj [("$and", v)]) =
          .ok (jsStrictEq (propGet obj "$and") v)) := by
  refine ⟨?_, ?_, ?_, ?_⟩
  · intro n obj cond hc hand harr
    simp only [matchF, hc, Bool.not_true, Bool.false_eq_true, if_false, hand, if_true]
    cases hv : propGet cond "$and" <;> simp_all [isArr]
  · intro n obj cond hc hand hor harr
    simp only [matchF, hc, Bool.not_true, Bool.false_eq_true, if_false, hand, hor, if_true]
    cases hv : propGet cond "$or" <;> simp_all [isArr]
  · intro n obj f op cmp restOps hnull hundef hf1 hf2 hf3 hop
    simp only [List.mem_cons, List.not_mem_nil, or_false, not_or] at hop
    obtain ⟨h1, h2, h3, h4, h5, h6, h7, h8, h9⟩ := hop
    have hprop : ∀ g : String, g ≠ f → propGet (vobj [(f, vobj ((op, cmp) :: restOps))]) g
        = vundef := by
      intro g hg
      simp [propGet, jsGet, Ne.symm hg]
    simp only [matchF, isContainer, Bool.not_true, Bool.false_eq_true, if_false,
      hprop "$and" (fun h => hf1 h.symm), hprop "$or" (fun h => hf2 h.symm),
      hprop "$not" (fun h => hf3 h.symm), jsTruthy, objEntries]
    cases obj <;> simp_all [matchFields, fieldVal, matchOps, Bind.bind, Except.bind,
      Pure.pure, Except.pure, h1, h2, h3, h4, h5, h6, h7, h8, h9]
  · intro n obj v hnull hundef hfalsy hvnull
    have hprop : propGet (vobj [("$and", v)]) "$and" = v := by simp [propGet, jsGet]
    have hpropo : propGet (vobj [("$and", v)]) "$or" = vundef := by simp [propGet, jsGet]
    have hpropn : propGet (vobj [("$and", v)]) "$not" = vundef := by simp [propGet, jsGet]
    simp only [matchF, isContainer, Bool.not_true, Bool.false_eq_true, if_false,
      hprop, hfalsy, hpropo, hpropn, jsTruthy, objEntries]
    cases v <;> cases obj <;>
      simp_all [matchFields, fieldVal, jsTruthy, jsStrictEq, Bind.bind, Except.bind,
        Pure.pure, Except.pure] <;>
      (try (split <;> simp_all))

/-- Concrete instances of the amended claim C6: a truthy non-array
`$and` raises `InvalidFilter`, an unknown first operator raises
`UnknownOperator`, and a falsy `$and` compares as a field. -/
theorem darkdb_C6_amended_witness :
    matchF 1 (vobj []) (vobj [("$and", vnum 5)]) =
        .error (.invalidFilter "$and must be array") ∧
      matchF 1 (vobj []) (vobj [("age", vobj [("$bogus", vnum 1)])]) =
        .error (.unknownOperator "$bogus") ∧
      matchF 1 (vobj []) (vobj [("$and", vnum 0)]) = .ok false := by
  refine ⟨?_, ?_, ?_⟩
  · exact darkdb_C6_amended_matcher_errors.1 0 (vobj []) (vobj [("$and", vnum 5)])
      (by decide) (by decide) (by decide)
  · exact darkdb_C6_amended_matcher_errors.2.2.1 0 (vobj []) "age" "$bogus" (vnum 1) []
      (by decide) (by decide) (by decide) (by decide) (by decide) (by decide)
  · have h := darkdb_C6_amended_matcher_errors.2.2.2 0 (vobj []) (vnum 0)
      (by decide) (by decide) (by decide) (by decide)
    rw [h]
    decide

/-! ### Claim C2: failed transactions leak index mutations (code bug) -/

/-- The failing transaction body of the claim's scenario: one `set` of
an indexed document, then an error. -/
def txFailDemo : List TxOp :=
  [TxOp.setv "a" (vobj [("title", vstr "node")]) none, TxOp.fail]

/-- **Claim C2.**  Evaluating `transaction` at the failing body: the
error is reported to the caller and the live tree (and the never-
touched live expiry table) match their pre-transaction state, but the
index — SHARED with the workspace instead of copied — keeps the posting
`"node" → \x7b"a"\x7d` written by the rolled-back `set`: tree, expiry table
and index are NOT rolled back as one unit. -/
theorem darkdb_C2_failed_tx_keeps_index_mutation :
    (transactionRun 0 dbNew txFailDemo).2 = false ∧
      (transactionRun 0 dbNew txFailDemo).1.data = dbNew.data ∧
      (transactionRun 0 dbNew txFailDemo).1.expires = dbNew.expires ∧
      (transactionRun 0 dbNew txFailDemo).1.index = [("node", ["a"])] ∧
      (transactionRun 0 dbNew txFailDemo).1.index ≠ dbNew.index := by
  decide

end DarkDB
